import Mathlib

/-
Verification of the sparse-matrix core of CGxx (src/Matrix.cpp, src/CG.h):
the COO (triplet) loader, the COO-to-CRS and COO-to-ELL conversions, their
chunked (split) variants driven by a WorkDistribution, and the timing
wrappers of the CG engine and default preconditioner hooks.

Values (C++ `floatType`) are an abstract type `α`: the code under study only
moves values, it never computes with them.  C++ arrays written positionally
are modelled as functions; the parallel `index`/`value` (resp. `index`/`data`)
arrays of the CRS/ELL structures, which are always written at the same
position in one loop step, are combined into one map from positions to
`(column, value)` pairs, `none` marking a slot the code never wrote.
-/

namespace CGxx

/-- One stored entry of a sparse matrix in coordinate form:
`(row, column, value)`. -/
abbrev Entry (α : Type) : Type := Nat × Nat × α

/-- Number of entries of `es` lying in row `r`. -/
def countRow {α : Type} (r : Nat) (es : List (Entry α)) : Nat :=
  (es.filter (fun e => e.1 == r)).length

/-- The `(column, value)` pairs of row `r` of `es`, in input order. -/
def rowEntries {α : Type} (r : Nat) (es : List (Entry α)) : List (Nat × α) :=
  (es.filter (fun e => e.1 == r)).map (fun e => e.2)

/-- `MatrixCOO`: dimension `N` plus the stored entries (the parallel source
arrays `I`, `J`, `V`, combined into one list of triplets). -/
structure MatrixCOO (α : Type) : Type where
  N : Nat
  entries : List (Entry α)

/-- `nz`: the number of stored entries. -/
def MatrixCOO.nz {α : Type} (coo : MatrixCOO α) : Nat := coo.entries.length

/-- `nzPerRow[r]`: the loader increments this once per stored entry of row
`r`, so it counts the entries of row `r`. -/
def MatrixCOO.nzPerRow {α : Type} (coo : MatrixCOO α) (r : Nat) : Nat :=
  countRow r coo.entries

/-- `MatrixCOO::getMaxNz(from, to)`: maximal `nzPerRow[i]` over
`from ≤ i < to`, computed by the running-maximum loop of the source. -/
def MatrixCOO.getMaxNz {α : Type} (coo : MatrixCOO α) (a b : Nat) : Nat :=
  (List.range' a (b - a)).foldl
    (fun m i => if coo.nzPerRow i > m then coo.nzPerRow i else m) 0

/-- The common fill loop of the four CRS/ELL constructors: scan the entries
once; the entry of row `r` is written at address `addr r (off r)` (the current cursor of its row), then the cursor `off r` advances by one.  `addr` abstracts
the four addressing schemes (CRS offset, ELL column-major slot, and their
per-chunk variants, whose address space is a `(chunk, position)` pair). -/
def fillGo {α κ : Type} [DecidableEq κ] (addr : Nat → Nat → κ) :
    List (Entry α) → (Nat → Nat) → (κ → Option (Nat × α)) →
      (Nat → Nat) × (κ → Option (Nat × α))
  | [], off, out => (off, out)
  | (r, c, v) :: es, off, out =>
      fillGo addr es (Function.update off r (off r + 1))
        (Function.update out (addr r (off r)) (some (c, v)))

theorem countRow_nil {α : Type} (r : Nat) : countRow r ([] : List (Entry α)) = 0 := rfl

theorem countRow_cons {α : Type} (r : Nat) (e : Entry α) (es : List (Entry α)) :
    countRow r (e :: es) = (if e.1 = r then 1 else 0) + countRow r es := by
  by_cases h : e.1 = r <;> simp [countRow, List.filter_cons, h] <;> omega

theorem rowEntries_cons {α : Type} (r : Nat) (e : Entry α) (es : List (Entry α)) :
    rowEntries r (e :: es) =
      if e.1 = r then e.2 :: rowEntries r es else rowEntries r es := by
  by_cases h : e.1 = r <;> simp [rowEntries, List.filter_cons, h]

theorem countRow_pos {α : Type} {r : Nat} {es : List (Entry α)}
    (h : 0 < countRow r es) : ∃ e, e ∈ es ∧ e.1 = r := by
  unfold countRow at h
  obtain ⟨e, he⟩ := List.exists_mem_of_length_pos h
  refine ⟨e, ?_, ?_⟩
  · exact (List.mem_filter.mp he).1
  · have := (List.mem_filter.mp he).2
    simpa using this

/-- After the fill loop, the cursor of each row has advanced by the entry count of that row. -/
theorem fillGo_fst {α κ : Type} [DecidableEq κ] (addr : Nat → Nat → κ)
    (es : List (Entry α)) :
    ∀ (off : Nat → Nat) (out : κ → Option (Nat × α)) (r : Nat),
      (fillGo addr es off out).1 r = off r + countRow r es := by
  induction es with
  | nil => intro off out r; simp [fillGo, countRow_nil]
  | cons e es ih =>
    obtain ⟨r₀, c₀, v₀⟩ := e
    intro off out r
    rw [fillGo, ih, countRow_cons]
    by_cases h : r = r₀
    · subst h; simp [Function.update_same]; omega
    · rw [Function.update_noteq h]
      have h2 : ¬ r₀ = r := fun he => h he.symm
      simp [h2]

/-- Addresses never written by the fill loop keep their initial contents. -/
theorem fillGo_untouched {α κ : Type} [DecidableEq κ] (addr : Nat → Nat → κ)
    (es : List (Entry α)) :
    ∀ (off : Nat → Nat) (out : κ → Option (Nat × α)) (a : κ),
      (∀ r k, k < countRow r es → addr r (off r + k) ≠ a) →
      (fillGo addr es off out).2 a = out a := by
  induction es with
  | nil => intro off out a _; rfl
  | cons e es ih =>
    obtain ⟨r₀, c₀, v₀⟩ := e
    intro off out a h
    rw [fillGo, ih]
    · apply Function.update_noteq
      have h0 : (0 : Nat) < countRow r₀ ((r₀, c₀, v₀) :: es) := by
        rw [countRow_cons]; simp
      have hne : addr r₀ (off r₀) ≠ a := by simpa using h r₀ 0 h0
      exact Ne.symm hne
    · intro r k hk
      by_cases hr : r = r₀
      · subst hr
        have : Function.update off r (off r + 1) r + k = off r + (k + 1) := by
          rw [Function.update_same]; omega
        rw [this]
        apply h r (k + 1)
        rw [countRow_cons]; simp; omega
      · rw [Function.update_noteq hr]
        apply h r k
        rw [countRow_cons]
        have : ¬ r₀ = r := fun he => hr he.symm
        simp [this]; omega

/-- Pushing the non-clobbering hypothesis of the fill loop through one step. -/
theorem fillGo_inj_step {α κ : Type} (addr : Nat → Nat → κ)
    (r₀ : Nat) (c₀ : Nat) (v₀ : α) (es : List (Entry α)) (off : Nat → Nat)
    (hinj : ∀ r₁ k₁ r₂ k₂, k₁ < countRow r₁ ((r₀, c₀, v₀) :: es) →
      k₂ < countRow r₂ ((r₀, c₀, v₀) :: es) →
      addr r₁ (off r₁ + k₁) = addr r₂ (off r₂ + k₂) → r₁ = r₂ ∧ k₁ = k₂) :
    ∀ r₁ k₁ r₂ k₂, k₁ < countRow r₁ es → k₂ < countRow r₂ es →
      addr r₁ (Function.update off r₀ (off r₀ + 1) r₁ + k₁) =
        addr r₂ (Function.update off r₀ (off r₀ + 1) r₂ + k₂) →
      r₁ = r₂ ∧ k₁ = k₂ := by
  intro r₁ k₁ r₂ k₂ h₁ h₂ heq
  have e₁ : Function.update off r₀ (off r₀ + 1) r₁ + k₁ =
      off r₁ + (if r₁ = r₀ then k₁ + 1 else k₁) := by
    by_cases h : r₁ = r₀
    · subst h; rw [Function.update_same]; simp; omega
    · rw [Function.update_noteq h]; simp [h]
  have e₂ : Function.update off r₀ (off r₀ + 1) r₂ + k₂ =
      off r₂ + (if r₂ = r₀ then k₂ + 1 else k₂) := by
    by_cases h : r₂ = r₀
    · subst h; rw [Function.update_same]; simp; omega
    · rw [Function.update_noteq h]; simp [h]
  rw [e₁, e₂] at heq
  have b₁ : (if r₁ = r₀ then k₁ + 1 else k₁) < countRow r₁ ((r₀, c₀, v₀) :: es) := by
    rw [countRow_cons]
    by_cases h : r₁ = r₀
    · subst h; simp; omega
    · have : ¬ r₀ = r₁ := fun he => h he.symm
      simp [h, this]; omega
  have b₂ : (if r₂ = r₀ then k₂ + 1 else k₂) < countRow r₂ ((r₀, c₀, v₀) :: es) := by
    rw [countRow_cons]
    by_cases h : r₂ = r₀
    · subst h; simp; omega
    · have : ¬ r₀ = r₂ := fun he => h he.symm
      simp [h, this]; omega
  obtain ⟨hr, hk⟩ := hinj r₁ _ r₂ _ b₁ b₂ heq
  subst hr
  refine ⟨rfl, ?_⟩
  by_cases h : r₁ = r₀ <;> simp [h] at hk <;> omega

/-- The fill loop places the `k`-th entry of row `r` (in input order) at
address `addr r (off r + k)`, provided distinct `(row, slot)` pairs get
distinct addresses. -/
theorem fillGo_lookup {α κ : Type} [DecidableEq κ] (addr : Nat → Nat → κ)
    (es : List (Entry α)) :
    ∀ (off : Nat → Nat) (out : κ → Option (Nat × α)) (r k : Nat),
      k < countRow r es →
      (∀ r₁ k₁ r₂ k₂, k₁ < countRow r₁ es → k₂ < countRow r₂ es →
        addr r₁ (off r₁ + k₁) = addr r₂ (off r₂ + k₂) → r₁ = r₂ ∧ k₁ = k₂) →
      (fillGo addr es off out).2 (addr r (off r + k)) = (rowEntries r es)[k]? := by
  induction es with
  | nil =>
    intro off out r k hk _
    rw [countRow_nil] at hk; omega
  | cons e es ih =>
    obtain ⟨r₀, c₀, v₀⟩ := e
    intro off out r k hk hinj
    rw [fillGo]
    by_cases hr : r = r₀
    · subst hr
      cases k with
      | zero =>
        have hainj := fillGo_inj_step addr r c₀ v₀ es off hinj
        rw [fillGo_untouched]
        · rw [show off r + 0 = off r by omega, Function.update_same,
            rowEntries_cons]
          simp
        · intro r' k' hk' heq
          by_cases hr' : r' = r
          · subst hr'
            have : Function.update off r' (off r' + 1) r' + k' = off r' + (k' + 1) := by
              rw [Function.update_same]; omega
            rw [this, show off r' + 0 = off r' by omega] at heq
            have hb1 : k' + 1 < countRow r' ((r', c₀, v₀) :: es) := by
              rw [countRow_cons]; simp; omega
            have hb2 : (0 : Nat) < countRow r' ((r', c₀, v₀) :: es) := by
              rw [countRow_cons]; simp
            have := hinj r' (k' + 1) r' 0 hb1 hb2 (by rw [show off r' + 0 = off r' by omega]; exact heq)
            omega
          · rw [Function.update_noteq hr',
              show off r + 0 = off r by omega] at heq
            have hb1 : k' < countRow r' ((r, c₀, v₀) :: es) := by
              rw [countRow_cons]
              have : ¬ r = r' := fun he => hr' he.symm
              simp [this]; omega
            have hb2 : (0 : Nat) < countRow r ((r, c₀, v₀) :: es) := by
              rw [countRow_cons]; simp
            have := hinj r' k' r 0 hb1 hb2
              (by rw [show off r + 0 = off r by omega]; exact heq)
            exact hr' this.1
      | succ k' =>
        have hainj := fillGo_inj_step addr r c₀ v₀ es off hinj
        have hoff : off r + (k' + 1) = Function.update off r (off r + 1) r + k' := by
          rw [Function.update_same]; omega
        rw [hoff, ih _ _ r k' ?_ hainj]
        · rw [rowEntries_cons]; simp
        · rw [countRow_cons] at hk; simp at hk; omega
    · have hainj := fillGo_inj_step addr r₀ c₀ v₀ es off hinj
      have hoff : off r = Function.update off r₀ (off r₀ + 1) r := by
        rw [Function.update_noteq hr]
      rw [hoff, ih _ _ r k ?_ hainj]
      · rw [rowEntries_cons]
        have : ¬ r₀ = r := fun he => hr he.symm
        simp [this]
      · rw [countRow_cons] at hk
        have : ¬ r₀ = r := fun he => hr he.symm
        simp [this] at hk; omega

/-- The running prefix sum `p[0] = 0, p[j+1] = p[j] + g j` that the CRS
constructors build their row-pointer arrays with. -/
def ptrSum (g : Nat → Nat) : Nat → Nat
  | 0 => 0
  | j + 1 => ptrSum g j + g j

theorem ptrSum_le (g : Nat → Nat) {i j : Nat} (h : i ≤ j) :
    ptrSum g i ≤ ptrSum g j := by
  induction j with
  | zero =>
    have hi : i = 0 := Nat.le_zero.mp h
    rw [hi]
  | succ j ih =>
    rcases Nat.lt_or_ge i (j + 1) with hlt | hge
    · have := ih (by omega)
      rw [ptrSum]; omega
    · have hi : i = j + 1 := by omega
      rw [hi]

theorem ptrSum_add_lt (g : Nat → Nat) {j₁ k₁ j₂ : Nat} (h : j₁ < j₂)
    (hk : k₁ < g j₁) : ptrSum g j₁ + k₁ < ptrSum g j₂ := by
  have h1 : ptrSum g j₁ + k₁ < ptrSum g (j₁ + 1) := by rw [ptrSum]; omega
  have h2 := ptrSum_le g (show j₁ + 1 ≤ j₂ by omega)
  omega

theorem ptrSum_inj (g : Nat → Nat) {j₁ k₁ j₂ k₂ : Nat}
    (h₁ : k₁ < g j₁) (h₂ : k₂ < g j₂)
    (he : ptrSum g j₁ + k₁ = ptrSum g j₂ + k₂) : j₁ = j₂ ∧ k₁ = k₂ := by
  rcases Nat.lt_trichotomy j₁ j₂ with h | h | h
  · have := ptrSum_add_lt g h h₁; omega
  · subst h; omega
  · have := ptrSum_add_lt g h h₂; omega

theorem ptrSum_surj (g : Nat → Nat) :
    ∀ (n p : Nat), p < ptrSum g n → ∃ j, j < n ∧ ∃ k, k < g j ∧ p = ptrSum g j + k := by
  intro n
  induction n with
  | zero => intro p hp; rw [ptrSum] at hp; omega
  | succ n ih =>
    intro p hp
    rw [ptrSum] at hp
    rcases Nat.lt_or_ge p (ptrSum g n) with h | h
    · obtain ⟨j, hj, k, hk, he⟩ := ih p h
      exact ⟨j, by omega, k, hk, he⟩
    · exact ⟨n, by omega, p - ptrSum g n, by omega, by omega⟩

theorem ptrSum_congr {g₁ g₂ : Nat → Nat} {n : Nat}
    (h : ∀ j, j < n → g₁ j = g₂ j) : ∀ i, i ≤ n → ptrSum g₁ i = ptrSum g₂ i := by
  intro i
  induction i with
  | zero => intro _; rfl
  | succ i ih =>
    intro hi
    rw [ptrSum, ptrSum, ih (by omega), h i (by omega)]

theorem ptrSum_eq_sum (g : Nat → Nat) (n : Nat) :
    ptrSum g n = Finset.sum (Finset.range n) g := by
  induction n with
  | zero => rfl
  | succ n ih => rw [ptrSum, Finset.sum_range_succ, ih]

theorem sum_countRow {α : Type} (N : Nat) (es : List (Entry α))
    (h : ∀ e, e ∈ es → e.1 < N) :
    Finset.sum (Finset.range N) (fun r => countRow r es) = es.length := by
  induction es with
  | nil => simp [countRow_nil]
  | cons e es ih =>
    have hcons : ∀ r, countRow r (e :: es) = (if e.1 = r then 1 else 0) + countRow r es :=
      fun r => countRow_cons r e es
    calc Finset.sum (Finset.range N) (fun r => countRow r (e :: es))
        = Finset.sum (Finset.range N)
            (fun r => (if e.1 = r then 1 else 0) + countRow r es) := by
          exact Finset.sum_congr rfl (fun r _ => hcons r)
      _ = Finset.sum (Finset.range N) (fun r => if e.1 = r then 1 else 0) +
            Finset.sum (Finset.range N) (fun r => countRow r es) := by
          rw [Finset.sum_add_distrib]
      _ = 1 + es.length := by
          rw [ih (fun e' he' => h e' (List.mem_cons_of_mem e he'))]
          congr 1
          rw [Finset.sum_ite_eq]
          simp [h e (List.mem_cons_self e es)]
      _ = (e :: es).length := by simp; omega

/-- If a fill address depends on the row slot alone and the rows all lie
below `N`, distinct `(row, slot)` pairs with `slot < nzPerRow row` reach
distinct `slot * N + row` ELL addresses. -/
theorem mul_add_inj {n a₁ b₁ a₂ b₂ : Nat} (h₁ : b₁ < n) (h₂ : b₂ < n)
    (he : a₁ * n + b₁ = a₂ * n + b₂) : a₁ = a₂ ∧ b₁ = b₂ := by
  rcases Nat.lt_trichotomy a₁ a₂ with h | h | h
  · exfalso
    have h3 : a₁ * n + b₁ < (a₁ + 1) * n := by rw [Nat.succ_mul]; omega
    have h4 : (a₁ + 1) * n ≤ a₂ * n := Nat.mul_le_mul_right n h
    omega
  · subst h; omega
  · exfalso
    have h3 : a₂ * n + b₂ < (a₂ + 1) * n := by rw [Nat.succ_mul]; omega
    have h4 : (a₂ + 1) * n ≤ a₁ * n := Nat.mul_le_mul_right n h
    omega

/-- The CRS row-pointer array, built by
`ptr[0] = 0; ptr[i] = ptr[i-1] + nzPerRow[i-1]`. -/
def crsPtr {α : Type} (coo : MatrixCOO α) : Nat → Nat :=
  ptrSum coo.nzPerRow

/-- Result of `DataMatrix<MatrixDataCRS>::DataMatrix`: the row-pointer array
and the parallel `index`/`value` arrays (combined, position to
`(column, value)`). -/
structure MatrixDataCRS (α : Type) : Type where
  ptr : Nat → Nat
  entryAt : Nat → Option (Nat × α)

/-- `DataMatrix<MatrixDataCRS>::DataMatrix(coo)`: build `ptr` as the prefix
sums of `nzPerRow`, seed the per-row cursors `offsets` from `ptr`, then scan
the triplets once writing each at `index[offsets[row]]` /
`value[offsets[row]]` and advancing `offsets[row]`. -/
def dataMatrixCRS {α : Type} (coo : MatrixCOO α) : MatrixDataCRS α :=
  { ptr := crsPtr coo
    entryAt := (fillGo (fun _ o => o) coo.entries (crsPtr coo) (fun _ => none)).2 }

/-- Result of `DataMatrix<MatrixDataELL>::DataMatrix`: padded-format sizes
plus the parallel `index`/`data` arrays (combined). -/
structure MatrixDataELL (α : Type) : Type where
  elements : Nat
  length : Nat → Nat
  entryAt : Nat → Option (Nat × α)

/-- `DataMatrix<MatrixDataELL>::DataMatrix(coo)`: `elements = N * getMaxNz()`,
`length` copied from `nzPerRow`, and a single scan writing each entry at
linear slot `offsets[row] * N + row` before advancing `offsets[row]`
(cursors start at 0). -/
def dataMatrixELL {α : Type} (coo : MatrixCOO α) : MatrixDataELL α :=
  { elements := coo.N * coo.getMaxNz 0 coo.N
    length := coo.nzPerRow
    entryAt :=
      (fillGo (fun r o => o * coo.N + r) coo.entries (fun _ => 0) (fun _ => none)).2 }

/-- CRS lookup: position `ptr r + k` holds the `k`-th entry of row `r`. -/
theorem crs_lookup {α : Type} (coo : MatrixCOO α) (r k : Nat)
    (hk : k < coo.nzPerRow r) :
    (dataMatrixCRS coo).entryAt (crsPtr coo r + k) = (rowEntries r coo.entries)[k]? := by
  exact fillGo_lookup (fun _ o => o) coo.entries (crsPtr coo) (fun _ => none) r k hk
    (fun r₁ k₁ r₂ k₂ h₁ h₂ heq => ptrSum_inj coo.nzPerRow h₁ h₂ heq)

/-- ELL lookup: slot `k * N + r` holds the `k`-th entry of row `r`. -/
theorem ell_lookup {α : Type} (coo : MatrixCOO α)
    (hrows : ∀ e, e ∈ coo.entries → e.1 < coo.N) (r k : Nat)
    (hk : k < coo.nzPerRow r) :
    (dataMatrixELL coo).entryAt (k * coo.N + r) = (rowEntries r coo.entries)[k]? := by
  have h0 : (fun r o => o * coo.N + r : Nat → Nat → Nat) r ((fun _ => (0 : Nat)) r + k) =
      k * coo.N + r := by simp
  rw [show k * coo.N + r = (fun r o => o * coo.N + r : Nat → Nat → Nat) r
    ((fun _ => (0 : Nat)) r + k) from h0.symm]
  apply fillGo_lookup (fun r o => o * coo.N + r) coo.entries (fun _ => 0)
    (fun _ => none) r k hk
  intro r₁ k₁ r₂ k₂ h₁ h₂ heq
  have hr₁ : r₁ < coo.N := by
    obtain ⟨e, he, hre⟩ := countRow_pos (Nat.lt_of_le_of_lt (Nat.zero_le _) h₁)
    exact hre ▸ hrows e he
  have hr₂ : r₂ < coo.N := by
    obtain ⟨e, he, hre⟩ := countRow_pos (Nat.lt_of_le_of_lt (Nat.zero_le _) h₂)
    exact hre ▸ hrows e he
  have heq2 : (0 + k₁) * coo.N + r₁ = (0 + k₂) * coo.N + r₂ := heq
  have := mul_add_inj hr₁ hr₂ heq2
  omega

/-- ELL padding: a slot past the entry count of a row is never written. -/
theorem ell_padding {α : Type} (coo : MatrixCOO α)
    (hrows : ∀ e, e ∈ coo.entries → e.1 < coo.N) (r k : Nat)
    (hr : r < coo.N) (hk : coo.nzPerRow r ≤ k) :
    (dataMatrixELL coo).entryAt (k * coo.N + r) = none := by
  apply fillGo_untouched (fun r o => o * coo.N + r) coo.entries (fun _ => 0)
    (fun _ => none)
  intro r' k' hk' heq
  have hr' : r' < coo.N := by
    obtain ⟨e, he, hre⟩ := countRow_pos (Nat.lt_of_le_of_lt (Nat.zero_le _) hk')
    exact hre ▸ hrows e he
  have heq2 : (0 + k') * coo.N + r' = k * coo.N + r := heq
  obtain ⟨hk2, hr2⟩ := mul_add_inj hr' hr heq2
  subst hr2
  have hcnt : countRow r' coo.entries = coo.nzPerRow r' := rfl
  omega

theorem foldMax_ge_init (g : Nat → Nat) (l : List Nat) :
    ∀ m₀ : Nat, m₀ ≤ l.foldl (fun m i => if g i > m then g i else m) m₀ := by
  induction l with
  | nil => intro m₀; exact Nat.le_refl m₀
  | cons a l ih =>
    intro m₀
    have h1 : m₀ ≤ (if g a > m₀ then g a else m₀) := by
      split <;> omega
    exact Nat.le_trans h1 (ih _)

theorem foldMax_ge_mem (g : Nat → Nat) (l : List Nat) :
    ∀ (m₀ : Nat) (i : Nat), i ∈ l →
      g i ≤ l.foldl (fun m i => if g i > m then g i else m) m₀ := by
  induction l with
  | nil => intro _ i hi; cases hi
  | cons a l ih =>
    intro m₀ i hi
    rcases List.mem_cons.mp hi with h | h
    · subst h
      have h1 : g i ≤ (if g i > m₀ then g i else m₀) := by split <;> omega
      exact Nat.le_trans h1 (foldMax_ge_init g l _)
    · exact ih _ i h

theorem foldMax_attained (g : Nat → Nat) (l : List Nat) :
    ∀ m₀ : Nat,
      l.foldl (fun m i => if g i > m then g i else m) m₀ = m₀ ∨
      ∃ i, i ∈ l ∧ l.foldl (fun m i => if g i > m then g i else m) m₀ = g i := by
  induction l with
  | nil => intro m₀; exact Or.inl rfl
  | cons a l ih =>
    intro m₀
    rcases ih (if g a > m₀ then g a else m₀) with h | h
    · rw [List.foldl_cons]
      by_cases hc : g a > m₀
      · right
        exact ⟨a, List.mem_cons_self a l, by rw [h]; simp [hc]⟩
      · left
        rw [h]; simp [hc]
    · obtain ⟨i, hi, he⟩ := h
      right
      exact ⟨i, List.mem_cons_of_mem a hi, by rw [List.foldl_cons]; exact he⟩

/-- `getMaxNz a b` bounds every `nzPerRow i` with `a ≤ i < b`. -/
theorem getMaxNz_ge {α : Type} (coo : MatrixCOO α) (a b i : Nat)
    (h1 : a ≤ i) (h2 : i < b) : coo.nzPerRow i ≤ coo.getMaxNz a b := by
  apply foldMax_ge_mem
  rw [List.mem_range'_1]
  omega

/-- `getMaxNz a b` is attained (or the range is all-zero / empty). -/
theorem getMaxNz_attained {α : Type} (coo : MatrixCOO α) (a b : Nat) :
    coo.getMaxNz a b = 0 ∨
      ∃ i, a ≤ i ∧ i < b ∧ coo.getMaxNz a b = coo.nzPerRow i := by
  rcases foldMax_attained (coo.nzPerRow) (List.range' a (b - a)) 0 with h | h
  · exact Or.inl h
  · obtain ⟨i, hi, he⟩ := h
    rw [List.mem_range'_1] at hi
    rcases le_or_lt b a with hba | hba
    · left
      omega
    · exact Or.inr ⟨i, by omega, by omega, he⟩

/-- The chunk-local sub-matrix of `coo` on the row range `[a, a + len)`:
dimension `len`, rows shifted to be chunk-relative, columns and values
untouched.  This is the input on which the claims compare the chunked
constructions with the unchunked ones. -/
def MatrixCOO.restrict {α : Type} (coo : MatrixCOO α) (a len : Nat) : MatrixCOO α :=
  { N := len
    entries :=
      (coo.entries.filter (fun e => decide (a ≤ e.1) && decide (e.1 < a + len))).map
        (fun e => (e.1 - a, e.2.1, e.2.2)) }

theorem countRow_restrictList {α : Type} (a len j : Nat) (hj : j < len) :
    ∀ es : List (Entry α),
      countRow j ((es.filter (fun e => decide (a ≤ e.1) && decide (e.1 < a + len))).map
        (fun e => (e.1 - a, e.2.1, e.2.2))) = countRow (a + j) es := by
  intro es
  induction es with
  | nil => rfl
  | cons e es ih =>
    rw [List.filter_cons]
    by_cases hc : a ≤ e.1 ∧ e.1 < a + len
    · rw [if_pos (by simp [hc.1, hc.2]), List.map_cons, countRow_cons, countRow_cons, ih]
      by_cases he : e.1 = a + j
      · rw [if_pos (by omega), if_pos he]
      · rw [if_neg (by omega), if_neg he]
    · rw [if_neg (by simpa using fun h1 h2 => hc ⟨h1, h2⟩), ih, countRow_cons]
      rw [if_neg (by omega)]
      omega

theorem rowEntries_restrictList {α : Type} (a len j : Nat) (hj : j < len) :
    ∀ es : List (Entry α),
      rowEntries j ((es.filter (fun e => decide (a ≤ e.1) && decide (e.1 < a + len))).map
        (fun e => (e.1 - a, e.2.1, e.2.2))) = rowEntries (a + j) es := by
  intro es
  induction es with
  | nil => rfl
  | cons e es ih =>
    rw [List.filter_cons]
    by_cases hc : a ≤ e.1 ∧ e.1 < a + len
    · rw [if_pos (by simp [hc.1, hc.2]), List.map_cons, rowEntries_cons, rowEntries_cons, ih]
      by_cases he : e.1 = a + j
      · rw [if_pos (by omega), if_pos he]
      · rw [if_neg (by omega), if_neg he]
    · rw [if_neg (by simpa using fun h1 h2 => hc ⟨h1, h2⟩), ih, rowEntries_cons]
      rw [if_neg (by omega)]

theorem restrict_nzPerRow {α : Type} (coo : MatrixCOO α) (a len j : Nat)
    (hj : j < len) :
    (coo.restrict a len).nzPerRow j = coo.nzPerRow (a + j) :=
  countRow_restrictList a len j hj coo.entries

theorem restrict_rowEntries {α : Type} (coo : MatrixCOO α) (a len j : Nat)
    (hj : j < len) :
    rowEntries j (coo.restrict a len).entries = rowEntries (a + j) coo.entries :=
  rowEntries_restrictList a len j hj coo.entries

theorem restrict_rows_lt {α : Type} (coo : MatrixCOO α) (a len : Nat) :
    ∀ e, e ∈ (coo.restrict a len).entries → e.1 < (coo.restrict a len).N := by
  intro e he
  unfold MatrixCOO.restrict at he
  simp only [List.mem_map] at he
  obtain ⟨e', he', hee⟩ := he
  have := List.mem_filter.mp he'
  have hcond := this.2
  simp only [Bool.and_eq_true, decide_eq_true_eq] at hcond
  rw [← hee]
  show e'.1 - a < len
  omega

/-- `nzPerRow` above the restricted range is zero. -/
theorem restrict_nzPerRow_hi {α : Type} (coo : MatrixCOO α) (a len j : Nat)
    (hj : len ≤ j) : (coo.restrict a len).nzPerRow j = 0 := by
  unfold MatrixCOO.nzPerRow
  by_contra h
  obtain ⟨e, he, hre⟩ := countRow_pos (Nat.pos_of_ne_zero h)
  have h2 := restrict_rows_lt coo a len e he
  have hN : (coo.restrict a len).N = len := rfl
  omega

/-- The chunk-local maximum over `[a, a + len)` equals the unchunked maximum
of the restricted sub-matrix. -/
theorem restrict_getMaxNz {α : Type} (coo : MatrixCOO α) (a len : Nat) :
    (coo.restrict a len).getMaxNz 0 len = coo.getMaxNz a (a + len) := by
  apply Nat.le_antisymm
  · rcases getMaxNz_attained (coo.restrict a len) 0 len with h | h
    · omega
    · obtain ⟨i, _, hi2, he⟩ := h
      rw [he, restrict_nzPerRow coo a len i hi2]
      exact getMaxNz_ge coo a (a + len) (a + i) (by omega) (by omega)
  · rcases getMaxNz_attained coo a (a + len) with h | h
    · omega
    · obtain ⟨i, hi1, hi2, he⟩ := h
      rw [he, show i = a + (i - a) by omega,
        ← restrict_nzPerRow coo a len (i - a) (by omega)]
      exact getMaxNz_ge (coo.restrict a len) 0 len (i - a) (by omega) (by omega)

/-- Modelled from the spec: `WorkDistribution` (its implementation file is
not among the studied sources; the split constructors consume exactly this
interface).  It partitions the `N` rows into chunks: chunk `c` owns the
contiguous row range `[offsets c, offsets c + lengths c)`, and `findChunk`
maps a row back to its owning chunk. -/
structure WorkDistribution : Type where
  numberOfChunks : Nat
  offsets : Nat → Nat
  lengths : Nat → Nat
  findChunk : Nat → Nat

/-- Modelled from the spec: validity of a `WorkDistribution` over `[0, N)` —
chunk ranges lie inside `[0, N)`, are pairwise disjoint, and `findChunk`
returns the owning chunk of every row (hence the ranges cover `[0, N)`). -/
structure WDValid (wd : WorkDistribution) (N : Nat) : Prop where
  findChunk_lt : ∀ r, r < N → wd.findChunk r < wd.numberOfChunks
  findChunk_le : ∀ r, r < N → wd.offsets (wd.findChunk r) ≤ r
  findChunk_mem : ∀ r, r < N →
    r < wd.offsets (wd.findChunk r) + wd.lengths (wd.findChunk r)
  chunks_le : ∀ c, c < wd.numberOfChunks → wd.offsets c + wd.lengths c ≤ N
  disjoint : ∀ c₁, c₁ < wd.numberOfChunks → ∀ c₂, c₂ < wd.numberOfChunks →
    ∀ j₁, j₁ < wd.lengths c₁ → ∀ j₂, j₂ < wd.lengths c₂ →
    wd.offsets c₁ + j₁ = wd.offsets c₂ + j₂ → c₁ = c₂

theorem WDValid.findChunk_eq {wd : WorkDistribution} {N : Nat}
    (h : WDValid wd N) {c j : Nat} (hc : c < wd.numberOfChunks)
    (hj : j < wd.lengths c) : wd.findChunk (wd.offsets c + j) = c := by
  have hrN : wd.offsets c + j < N :=
    Nat.lt_of_lt_of_le (by omega) (h.chunks_le c hc)
  have h1 := h.findChunk_lt _ hrN
  have h2 := h.findChunk_le _ hrN
  have h3 := h.findChunk_mem _ hrN
  exact h.disjoint _ h1 c hc
    (wd.offsets c + j - wd.offsets (wd.findChunk (wd.offsets c + j))) (by omega)
    j hj (by omega)

/-- The chunk-relative row-pointer array of chunk `c` (`data[c].ptr`): prefix
sums of `nzPerRow` over the own row range of the chunk, starting at 0. -/
def splitCRSptr {α : Type} (coo : MatrixCOO α) (wd : WorkDistribution)
    (c : Nat) : Nat → Nat :=
  ptrSum (fun j => coo.nzPerRow (wd.offsets c + j))

/-- The shared `offsets` cursor array as initialised by the first loop
of the split-CRS constructor: `offsets[offset + i - 1] = data[c].ptr[i - 1]`
for every chunk `c`, written here as the same double loop. -/
def initOffsets {α : Type} (coo : MatrixCOO α) (wd : WorkDistribution) :
    Nat → Nat :=
  (List.range wd.numberOfChunks).foldl
    (fun off c =>
      (List.range (wd.lengths c)).foldl
        (fun off2 j => Function.update off2 (wd.offsets c + j) (splitCRSptr coo wd c j))
        off)
    (fun _ => 0)

theorem foldUpd_get (g : Nat → Nat) (base : Nat) :
    ∀ (n : Nat) (f : Nat → Nat) (j : Nat), j < n →
      ((List.range n).foldl (fun f2 j2 => Function.update f2 (base + j2) (g j2)) f)
        (base + j) = g j := by
  intro n
  induction n with
  | zero => intro f j hj; omega
  | succ n ih =>
    intro f j hj
    rw [List.range_succ, List.foldl_append]
    simp only [List.foldl_cons, List.foldl_nil]
    by_cases h : j = n
    · subst h; rw [Function.update_same]
    · rw [Function.update_noteq (by omega : base + j ≠ base + n)]
      exact ih f j (by omega)

theorem foldUpd_out (g : Nat → Nat) (base : Nat) :
    ∀ (n : Nat) (f : Nat → Nat) (x : Nat), (∀ j, j < n → base + j ≠ x) →
      ((List.range n).foldl (fun f2 j2 => Function.update f2 (base + j2) (g j2)) f)
        x = f x := by
  intro n
  induction n with
  | zero => intro f x _; rfl
  | succ n ih =>
    intro f x hx
    rw [List.range_succ, List.foldl_append]
    simp only [List.foldl_cons, List.foldl_nil]
    rw [Function.update_noteq (Ne.symm (hx n (by omega)))]
    exact ih f x (fun j hj => hx j (by omega))

theorem initOffsets_get {α : Type} (coo : MatrixCOO α) (wd : WorkDistribution)
    (hdisj : ∀ c₁, c₁ < wd.numberOfChunks → ∀ c₂, c₂ < wd.numberOfChunks →
      ∀ j₁, j₁ < wd.lengths c₁ → ∀ j₂, j₂ < wd.lengths c₂ →
      wd.offsets c₁ + j₁ = wd.offsets c₂ + j₂ → c₁ = c₂)
    (c j : Nat) (hc : c < wd.numberOfChunks) (hj : j < wd.lengths c) :
    initOffsets coo wd (wd.offsets c + j) = splitCRSptr coo wd c j := by
  suffices hgen : ∀ (n : Nat), n ≤ wd.numberOfChunks → ∀ (f : Nat → Nat) (c j : Nat),
      c < n → j < wd.lengths c →
      ((List.range n).foldl
        (fun off c2 => (List.range (wd.lengths c2)).foldl
          (fun off2 j2 => Function.update off2 (wd.offsets c2 + j2) (splitCRSptr coo wd c2 j2))
          off) f)
        (wd.offsets c + j) = splitCRSptr coo wd c j by
    exact hgen wd.numberOfChunks (Nat.le_refl _) (fun _ => 0) c j hc hj
  intro n
  induction n with
  | zero => intro _ f c j hc _; omega
  | succ n ih =>
    intro hn f c j hc hj
    rw [List.range_succ, List.foldl_append]
    simp only [List.foldl_cons, List.foldl_nil]
    by_cases h : c = n
    · subst h
      exact foldUpd_get _ _ _ _ j hj
    · rw [foldUpd_out]
      · exact ih (by omega) f c j (by omega) hj
      · intro j2 hj2 heq
        have := hdisj n (by omega) c (by omega) j2 hj2 j hj heq
        omega

/-- Result of `SplitMatrix<MatrixDataCRS>::SplitMatrix`: per-chunk
chunk-relative row pointers and per-chunk `index`/`value` arrays (combined;
the address space is a `(chunk, position)` pair). -/
structure SplitMatrixCRS (α : Type) : Type where
  ptr : Nat → Nat → Nat
  entryAt : Nat × Nat → Option (Nat × α)

/-- `SplitMatrix<MatrixDataCRS>::SplitMatrix(coo, wd)`: build the chunk-relative
`ptr` of each chunk, seed the shared per-row cursors from them, then scan
the triplets once, writing entry `i` into chunk `findChunk(I[i])` at
position `offsets[I[i]]`. -/
def splitMatrixCRS {α : Type} (coo : MatrixCOO α) (wd : WorkDistribution) :
    SplitMatrixCRS α :=
  { ptr := fun c => splitCRSptr coo wd c
    entryAt := (fillGo (fun r o => (wd.findChunk r, o)) coo.entries
      (initOffsets coo wd) (fun _ => none)).2 }

/-- Result of `SplitMatrix<MatrixDataELL>::SplitMatrix`: per-chunk sizes,
per-chunk `length` arrays and per-chunk `index`/`data` arrays (combined). -/
structure SplitMatrixELL (α : Type) : Type where
  elements : Nat → Nat
  length : Nat → Nat → Nat
  entryAt : Nat × Nat → Option (Nat × α)

/-- `SplitMatrix<MatrixDataELL>::SplitMatrix(coo, wd)`: per chunk `c`,
`maxNz = getMaxNz(offset, offset + length)`, `elements = maxNz * length`,
`length` copied from `nzPerRow + offset`; then one scan writing each entry
at `(chunk, offsets[row] * lengths[chunk] + row - offset[chunk])` with the
shared cursors starting at 0. -/
def splitMatrixELL {α : Type} (coo : MatrixCOO α) (wd : WorkDistribution) :
    SplitMatrixELL α :=
  { elements := fun c =>
      coo.getMaxNz (wd.offsets c) (wd.offsets c + wd.lengths c) * wd.lengths c
    length := fun c j => coo.nzPerRow (wd.offsets c + j)
    entryAt := (fillGo
      (fun r o => (wd.findChunk r,
        o * wd.lengths (wd.findChunk r) + (r - wd.offsets (wd.findChunk r))))
      coo.entries (fun _ => 0) (fun _ => none)).2 }

/-- Split-CRS lookup: inside chunk `c`, position `ptr[j] + k` holds the
`k`-th entry of global row `offsets c + j`. -/
theorem splitCRS_lookup {α : Type} (coo : MatrixCOO α) (wd : WorkDistribution)
    (hrows : ∀ e, e ∈ coo.entries → e.1 < coo.N) (hwd : WDValid wd coo.N)
    (c j k : Nat) (hc : c < wd.numberOfChunks) (hj : j < wd.lengths c)
    (hk : k < coo.nzPerRow (wd.offsets c + j)) :
    (splitMatrixCRS coo wd).entryAt (c, splitCRSptr coo wd c j + k) =
      (rowEntries (wd.offsets c + j) coo.entries)[k]? := by
  have hfc := hwd.findChunk_eq hc hj
  have hini := initOffsets_get coo wd hwd.disjoint c j hc hj
  have key := fillGo_lookup (fun r o => (wd.findChunk r, o)) coo.entries
    (initOffsets coo wd) (fun _ => none) (wd.offsets c + j) k hk ?_
  · show (fillGo (fun r o => (wd.findChunk r, o)) coo.entries
      (initOffsets coo wd) (fun _ => none)).2 (c, splitCRSptr coo wd c j + k) = _
    have haddr : ((c, splitCRSptr coo wd c j + k) : Nat × Nat) =
        (wd.findChunk (wd.offsets c + j), initOffsets coo wd (wd.offsets c + j) + k) := by
      rw [hfc, hini]
    rw [haddr]
    exact key
  · intro r₁ k₁ r₂ k₂ h₁ h₂ heq
    have hr₁ : r₁ < coo.N := by
      obtain ⟨e, he, hre⟩ := countRow_pos (Nat.lt_of_le_of_lt (Nat.zero_le _) h₁)
      exact hre ▸ hrows e he
    have hr₂ : r₂ < coo.N := by
      obtain ⟨e, he, hre⟩ := countRow_pos (Nat.lt_of_le_of_lt (Nat.zero_le _) h₂)
      exact hre ▸ hrows e he
    have hc₁ := hwd.findChunk_lt r₁ hr₁
    have hle₁ := hwd.findChunk_le r₁ hr₁
    have hmem₁ := hwd.findChunk_mem r₁ hr₁
    have hc₂ := hwd.findChunk_lt r₂ hr₂
    have hle₂ := hwd.findChunk_le r₂ hr₂
    have hmem₂ := hwd.findChunk_mem r₂ hr₂
    have hini₁ : initOffsets coo wd r₁ =
        splitCRSptr coo wd (wd.findChunk r₁) (r₁ - wd.offsets (wd.findChunk r₁)) := by
      have := initOffsets_get coo wd hwd.disjoint (wd.findChunk r₁)
        (r₁ - wd.offsets (wd.findChunk r₁)) hc₁ (by omega)
      rw [show wd.offsets (wd.findChunk r₁) + (r₁ - wd.offsets (wd.findChunk r₁)) = r₁
        by omega] at this
      exact this
    have hini₂ : initOffsets coo wd r₂ =
        splitCRSptr coo wd (wd.findChunk r₂) (r₂ - wd.offsets (wd.findChunk r₂)) := by
      have := initOffsets_get coo wd hwd.disjoint (wd.findChunk r₂)
        (r₂ - wd.offsets (wd.findChunk r₂)) hc₂ (by omega)
      rw [show wd.offsets (wd.findChunk r₂) + (r₂ - wd.offsets (wd.findChunk r₂)) = r₂
        by omega] at this
      exact this
    simp only [Prod.mk.injEq] at heq
    obtain ⟨hcc, hoo⟩ := heq
    rw [hini₁, hini₂, hcc] at hoo
    have hg₁ : k₁ < coo.nzPerRow
        (wd.offsets (wd.findChunk r₂) + (r₁ - wd.offsets (wd.findChunk r₂))) := by
      rw [show wd.offsets (wd.findChunk r₂) + (r₁ - wd.offsets (wd.findChunk r₂)) = r₁
        by rw [← hcc]; omega]
      exact h₁
    have hg₂ : k₂ < coo.nzPerRow
        (wd.offsets (wd.findChunk r₂) + (r₂ - wd.offsets (wd.findChunk r₂))) := by
      rw [show wd.offsets (wd.findChunk r₂) + (r₂ - wd.offsets (wd.findChunk r₂)) = r₂
        by omega]
      exact h₂
    obtain ⟨hj12, hk12⟩ := ptrSum_inj
      (fun j2 => coo.nzPerRow (wd.offsets (wd.findChunk r₂) + j2)) hg₁ hg₂ hoo
    constructor
    · rw [hcc] at hle₁
      omega
    · exact hk12

/-- Split-ELL lookup: inside chunk `c`, slot `k * lengths c + j` holds the
`k`-th entry of global row `offsets c + j`. -/
theorem splitELL_lookup {α : Type} (coo : MatrixCOO α) (wd : WorkDistribution)
    (hrows : ∀ e, e ∈ coo.entries → e.1 < coo.N) (hwd : WDValid wd coo.N)
    (c j k : Nat) (hc : c < wd.numberOfChunks) (hj : j < wd.lengths c)
    (hk : k < coo.nzPerRow (wd.offsets c + j)) :
    (splitMatrixELL coo wd).entryAt (c, k * wd.lengths c + j) =
      (rowEntries (wd.offsets c + j) coo.entries)[k]? := by
  have hfc := hwd.findChunk_eq hc hj
  have key := fillGo_lookup
    (fun r o => (wd.findChunk r,
      o * wd.lengths (wd.findChunk r) + (r - wd.offsets (wd.findChunk r))))
    coo.entries (fun _ => 0) (fun _ => none) (wd.offsets c + j) k hk ?_
  · show (fillGo (fun r o => (wd.findChunk r,
      o * wd.lengths (wd.findChunk r) + (r - wd.offsets (wd.findChunk r))))
      coo.entries (fun _ => 0) (fun _ => none)).2 (c, k * wd.lengths c + j) = _
    have haddr : ((c, k * wd.lengths c + j) : Nat × Nat) =
        (wd.findChunk (wd.offsets c + j),
          (0 + k) * wd.lengths (wd.findChunk (wd.offsets c + j)) +
            (wd.offsets c + j - wd.offsets (wd.findChunk (wd.offsets c + j)))) := by
      rw [hfc]
      simp
    rw [haddr]
    exact key
  · intro r₁ k₁ r₂ k₂ h₁ h₂ heq
    have hr₁ : r₁ < coo.N := by
      obtain ⟨e, he, hre⟩ := countRow_pos (Nat.lt_of_le_of_lt (Nat.zero_le _) h₁)
      exact hre ▸ hrows e he
    have hr₂ : r₂ < coo.N := by
      obtain ⟨e, he, hre⟩ := countRow_pos (Nat.lt_of_le_of_lt (Nat.zero_le _) h₂)
      exact hre ▸ hrows e he
    have hle₁ := hwd.findChunk_le r₁ hr₁
    have hmem₁ := hwd.findChunk_mem r₁ hr₁
    have hle₂ := hwd.findChunk_le r₂ hr₂
    have hmem₂ := hwd.findChunk_mem r₂ hr₂
    simp only [Prod.mk.injEq] at heq
    obtain ⟨hcc, hoo⟩ := heq
    rw [hcc] at hoo hle₁ hmem₁
    have hb₁ : r₁ - wd.offsets (wd.findChunk r₂) < wd.lengths (wd.findChunk r₂) := by
      omega
    have hb₂ : r₂ - wd.offsets (wd.findChunk r₂) < wd.lengths (wd.findChunk r₂) := by
      omega
    obtain ⟨hkk, hjj⟩ := mul_add_inj hb₁ hb₂ hoo
    constructor
    · omega
    · omega

/-- Split-ELL padding: a slot past the entry count of its row is never written. -/
theorem splitELL_padding {α : Type} (coo : MatrixCOO α) (wd : WorkDistribution)
    (hrows : ∀ e, e ∈ coo.entries → e.1 < coo.N) (hwd : WDValid wd coo.N)
    (c j k : Nat) (hc : c < wd.numberOfChunks) (hj : j < wd.lengths c)
    (hk : coo.nzPerRow (wd.offsets c + j) ≤ k) :
    (splitMatrixELL coo wd).entryAt (c, k * wd.lengths c + j) = none := by
  apply fillGo_untouched
  intro r' k' hk' heq
  have hr' : r' < coo.N := by
    obtain ⟨e, he, hre⟩ := countRow_pos (Nat.lt_of_le_of_lt (Nat.zero_le _) hk')
    exact hre ▸ hrows e he
  have hle' := hwd.findChunk_le r' hr'
  have hmem' := hwd.findChunk_mem r' hr'
  simp only [Prod.mk.injEq] at heq
  obtain ⟨hcc, hoo⟩ := heq
  rw [hcc] at hoo hle' hmem'
  have hb₁ : r' - wd.offsets c < wd.lengths c := by omega
  obtain ⟨hkk, hjj⟩ := mul_add_inj hb₁ hj hoo
  have hrr : r' = wd.offsets c + j := by omega
  rw [hrr] at hk'
  have hcnt : countRow (wd.offsets c + j) coo.entries =
    coo.nzPerRow (wd.offsets c + j) := rfl
  omega

/-- The read loop of `MatrixCOO::MatrixCOO` (lines 59-79): store the next
file triplet (indices shifted from 1-based to 0-based); if the matrix was
declared symmetric and the entry is off-diagonal, immediately also store the
mirrored entry; the loop runs while the write index `i` is below `nz`. -/
def loadGo {α : Type} (sym : Bool) (nzv : Nat) :
    Nat → List (Entry α) → List (Entry α)
  | _, [] => []
  | i, (r, c, v) :: file =>
    if i < nzv then
      if sym && !(r == c) then
        (r - 1, c - 1, v) :: (c - 1, r - 1, v) :: loadGo sym nzv (i + 2) file
      else
        (r - 1, c - 1, v) :: loadGo sym nzv (i + 1) file
    else []

/-- `MatrixCOO::MatrixCOO` after the header: for a symmetric banner the
stored-entry count is set to `2 * nz - N` ("store upper and lower
triangular"), then the read loop fills the arrays.  `nzIn` is the nonzero
count from the header, `file` the triplet lines (1-based indices). -/
def matrixCOOLoad {α : Type} (sym : Bool) (N nzIn : Nat)
    (file : List (Entry α)) : MatrixCOO α :=
  { N := N, entries := loadGo sym (if sym then 2 * nzIn - N else nzIn) 0 file }

/-- Number of file entries lying on the main diagonal. -/
def diagCount {α : Type} (file : List (Entry α)) : Nat :=
  (file.filter (fun e => e.1 == e.2.1)).length

/-- Specification-side description of the loader output: each file triplet
(0-based) is kept, and when `sym` holds each off-diagonal triplet is
immediately followed by its mirror image (row and column swapped, same
value). -/
def mirrorEntries {α : Type} (sym : Bool) : List (Entry α) → List (Entry α)
  | [] => []
  | (r, c, v) :: file =>
    if sym && !(r == c) then
      (r - 1, c - 1, v) :: (c - 1, r - 1, v) :: mirrorEntries sym file
    else
      (r - 1, c - 1, v) :: mirrorEntries sym file

theorem diagCount_le {α : Type} (file : List (Entry α)) :
    diagCount file ≤ file.length :=
  List.length_filter_le _ _

theorem diagCount_cons {α : Type} (e : Entry α) (file : List (Entry α)) :
    diagCount (e :: file) = (if e.1 = e.2.1 then 1 else 0) + diagCount file := by
  by_cases h : e.1 = e.2.1 <;> simp [diagCount, List.filter_cons, h] <;> omega

theorem mirrorEntries_length {α : Type} (sym : Bool) (file : List (Entry α)) :
    (mirrorEntries sym file).length =
      if sym then 2 * file.length - diagCount file else file.length := by
  induction file with
  | nil => cases sym <;> rfl
  | cons e file ih =>
    obtain ⟨r, c, v⟩ := e
    have hd := diagCount_le file
    by_cases hc : (sym && !(r == c)) = true
    · have hsym : sym = true := by
        cases sym
        · simp at hc
        · rfl
      have hrc : ¬ r = c := by
        intro he
        rw [he] at hc
        simp at hc
      rw [show mirrorEntries sym ((r, c, v) :: file) =
        (r - 1, c - 1, v) :: (c - 1, r - 1, v) :: mirrorEntries sym file
        from by rw [mirrorEntries, if_pos hc]]
      subst hsym
      rw [List.length_cons, List.length_cons, ih, if_pos rfl, if_pos rfl]
      have hdiag : diagCount ((r, c, v) :: file) = diagCount file := by
        rw [diagCount_cons, if_neg hrc]
        omega
      rw [hdiag, List.length_cons]
      omega
    · have hcf : (sym && !(r == c)) = false := by simpa using hc
      rw [show mirrorEntries sym ((r, c, v) :: file) =
        (r - 1, c - 1, v) :: mirrorEntries sym file
        from by rw [mirrorEntries, if_neg (by simp [hcf])]]
      rw [List.length_cons, ih]
      cases sym with
      | false => simp
      | true =>
        have hrc : r = c := by simpa using hcf
        rw [if_pos rfl, if_pos rfl]
        have hdiag : diagCount ((r, c, v) :: file) = 1 + diagCount file := by
          rw [diagCount_cons, if_pos hrc]
        rw [hdiag, List.length_cons]
        omega

/-- When the write bound is exactly the total number of slots the entries
need, the read loop consumes the whole file and stores exactly the mirrored
expansion. -/
theorem loadGo_complete {α : Type} (sym : Bool) (nzv : Nat) :
    ∀ (file : List (Entry α)) (i : Nat),
      i + (mirrorEntries sym file).length = nzv →
      loadGo sym nzv i file = mirrorEntries sym file := by
  intro file
  induction file with
  | nil => intro i _; cases sym <;> rfl
  | cons e file ih =>
    obtain ⟨r, c, v⟩ := e
    intro i h
    by_cases hc : (sym && !(r == c)) = true
    · have hlen : (mirrorEntries sym ((r, c, v) :: file)).length =
          2 + (mirrorEntries sym file).length := by
        simp [mirrorEntries, hc]; omega
      rw [loadGo, if_pos (by omega), if_pos hc]
      rw [show mirrorEntries sym ((r, c, v) :: file) =
        (r - 1, c - 1, v) :: (c - 1, r - 1, v) :: mirrorEntries sym file
        from by simp [mirrorEntries, hc]]
      rw [ih (i + 2) (by omega)]
    · have hcf : (sym && !(r == c)) = false := by
        simpa using hc
      have hlen : (mirrorEntries sym ((r, c, v) :: file)).length =
          1 + (mirrorEntries sym file).length := by
        simp [mirrorEntries, hcf]; omega
      rw [loadGo, if_pos (by omega), if_neg (by simp [hcf])]
      rw [show mirrorEntries sym ((r, c, v) :: file) =
        (r - 1, c - 1, v) :: mirrorEntries sym file
        from by simp [mirrorEntries, hcf]]
      rw [ih (i + 1) (by omega)]

/-- Every row index stored by the mirrored expansion comes from a file
triplet: it is `row - 1` (kept entry) or `column - 1` (mirrored entry). -/
theorem mirrorEntries_rows {α : Type} (sym : Bool) (file : List (Entry α)) :
    ∀ e2, e2 ∈ mirrorEntries sym file →
      ∃ e, e ∈ file ∧ (e2.1 = e.1 - 1 ∨ e2.1 = e.2.1 - 1) := by
  induction file with
  | nil => intro e2 h; cases h
  | cons e file ih =>
    obtain ⟨r, c, v⟩ := e
    intro e2 h2
    by_cases hc : (sym && !(r == c)) = true
    · rw [show mirrorEntries sym ((r, c, v) :: file) =
        (r - 1, c - 1, v) :: (c - 1, r - 1, v) :: mirrorEntries sym file
        from by simp [mirrorEntries, hc]] at h2
      rcases List.mem_cons.mp h2 with h | h
      · exact ⟨(r, c, v), List.mem_cons_self _ _, Or.inl (by rw [h])⟩
      · rcases List.mem_cons.mp h with h | h
        · exact ⟨(r, c, v), List.mem_cons_self _ _, Or.inr (by rw [h])⟩
        · obtain ⟨e, he, hor⟩ := ih e2 h
          exact ⟨e, List.mem_cons_of_mem _ he, hor⟩
    · have hcf : (sym && !(r == c)) = false := by simpa using hc
      rw [show mirrorEntries sym ((r, c, v) :: file) =
        (r - 1, c - 1, v) :: mirrorEntries sym file
        from by simp [mirrorEntries, hcf]] at h2
      rcases List.mem_cons.mp h2 with h | h
      · exact ⟨(r, c, v), List.mem_cons_self _ _, Or.inl (by rw [h])⟩
      · obtain ⟨e, he, hor⟩ := ih e2 h
        exact ⟨e, List.mem_cons_of_mem _ he, hor⟩

/-- Modelled from the spec: the outcome of the external Matrix Market
parsing dependency (mmio), as consumed by the loader checks — whether the
file opened, whether the banner parsed, the type flags of the banner, whether the
size line parsed, and the parsed dimensions/nonzero count. -/
structure MMInput : Type where
  readable : Bool
  bannerOk : Bool
  isSparse : Bool
  isReal : Bool
  sizeOk : Bool
  rows : Nat
  cols : Nat
  nzHeader : Nat

def isErr {ε β : Type} : Except ε β → Bool
  | Except.error _ => true
  | Except.ok _ => false

/-- The fatal-error checks at the top of `MatrixCOO::MatrixCOO`
(lines 13-42), in source order; `Except.error` models `std::exit(1)` after
the corresponding message, `Except.ok` the accepted dimension and header
nonzero count. -/
def matrixCOOCheck (f : MMInput) : Except String (Nat × Nat) :=
  if !f.readable then Except.error ("ERROR: Cannot open file!")
  else if !f.bannerOk then
    Except.error ("ERROR: Could not process Matrix Market banner!")
  else if !(f.isSparse && f.isReal) then
    Except.error ("ERROR: Only supporting real matrixes in coordinate format!")
  else if !f.sizeOk then Except.error ("ERROR: Could not read matrix size!")
  else if f.cols ≠ f.rows then Except.error ("ERROR: Need a quadratic matrix!")
  else Except.ok (f.cols, f.nzHeader)

/-- The six vectors of the CG engine. -/
inductive Vector : Type where
  | VectorK
  | VectorX
  | VectorP
  | VectorQ
  | VectorR
  | VectorZ

/-- The available preconditioners. -/
inductive Preconditioner : Type where
  | PreconditionerNone
  | PreconditionerJacobi

/-- `CG::Timing`: one running total per category (durations as abstract
ticks; the source field `io` is called `ioTime` here). -/
structure Timing : Type where
  ioTime : Nat
  converting : Nat
  solve : Nat
  matvec : Nat
  axpy : Nat
  xpay : Nat
  vectorDot : Nat
  preconditioner : Nat

/-- The engine state the timing wrappers touch: the backend-owned numeric
state (vectors, matrix, ...) as an abstract `σ`, plus the timing totals. -/
structure CGState (σ : Type) : Type where
  backend : σ
  timing : Timing

namespace CG

/-- `CG::matvec`: take the clock, run the virtual kernel, accumulate the
elapsed time into `timing.matvec`.  The virtual kernel is a parameter; the
two clock readings are oracle inputs `t0`, `t1`. -/
def matvec {σ : Type} (matvecKernel : Vector → Vector → σ → σ)
    (x y : Vector) (t0 t1 : Nat) (s : CGState σ) : CGState σ :=
  { backend := matvecKernel x y s.backend
    timing := { s.timing with matvec := s.timing.matvec + (t1 - t0) } }

/-- `CG::axpy`. -/
def axpy {σ α : Type} (axpyKernel : α → Vector → Vector → σ → σ)
    (a : α) (x y : Vector) (t0 t1 : Nat) (s : CGState σ) : CGState σ :=
  { backend := axpyKernel a x y s.backend
    timing := { s.timing with axpy := s.timing.axpy + (t1 - t0) } }

/-- `CG::xpay`. -/
def xpay {σ α : Type} (xpayKernel : Vector → α → Vector → σ → σ)
    (x : Vector) (a : α) (y : Vector) (t0 t1 : Nat) (s : CGState σ) : CGState σ :=
  { backend := xpayKernel x a y s.backend
    timing := { s.timing with xpay := s.timing.xpay + (t1 - t0) } }

/-- `CG::vectorDot`: the kernel returns the scalar result (and may update
backend state); the wrapper returns that result unchanged. -/
def vectorDot {σ α : Type} (vectorDotKernel : Vector → Vector → σ → α × σ)
    (a b : Vector) (t0 t1 : Nat) (s : CGState σ) : α × CGState σ :=
  ((vectorDotKernel a b s.backend).1,
    { backend := (vectorDotKernel a b s.backend).2
      timing := { s.timing with vectorDot := s.timing.vectorDot + (t1 - t0) } })

/-- `CG::applyPreconditioner`. -/
def applyPreconditioner {σ : Type} (kernel : Vector → Vector → σ → σ)
    (x y : Vector) (t0 t1 : Nat) (s : CGState σ) : CGState σ :=
  { backend := kernel x y s.backend
    timing := { s.timing with
      preconditioner := s.timing.preconditioner + (t1 - t0) } }

/-- The base-class default of `CG::supportsPreconditioner`: no
preconditioner is supported. -/
def supportsPreconditioner (p : Preconditioner) : Bool := false

/-- The base-class default of `CG::applyPreconditionerKernel`:
`assert(0 && "Preconditioner not implemented!")` — every call fails. -/
def applyPreconditionerKernel : Except String Unit :=
  Except.error ("Preconditioner not implemented!")

end CG

/-- A small concrete triplet matrix used to instantiate the theorems. -/
def cooW : MatrixCOO Nat :=
  { N := 3, entries := [(0, 0, 10), (1, 2, 11), (1, 0, 12), (2, 1, 13)] }

/-- A concrete work distribution over 3 rows: chunk 0 owns rows 0-1,
chunk 1 owns row 2. -/
def wdW : WorkDistribution :=
  { numberOfChunks := 2
    offsets := fun c => if c = 0 then 0 else 2
    lengths := fun c => if c = 0 then 2 else if c = 1 then 1 else 0
    findChunk := fun r => if r < 2 then 0 else 1 }

/-- A concrete symmetric-banner file: 1-based indices, full diagonal. -/
def fileW : List (Entry Nat) := [(1, 1, 3), (1, 2, 5), (2, 2, 7)]

/-- A concrete parsed-header outcome: everything fine except that the size
line does not parse. -/
def mmW : MMInput :=
  { readable := true, bannerOk := true, isSparse := true, isReal := true
    sizeOk := false, rows := 1, cols := 1, nzHeader := 0 }

/-- C1: for every triplet matrix, the CRS and ELL conversions preserve, for
every row `r`, exactly the `(column, value)` pairs of that row — the CRS row
segment `[ptr r, ptr r + nzPerRow r)` (whose width is exactly the count
of that row, first conjunct) holds them in triplet input order, the ELL slots
`k * N + r` hold them in the same order, and ELL slots past that count
stay empty, so both formats carry exactly the multiset of the row. -/
theorem C1_row_content_preserved {α : Type} (coo : MatrixCOO α)
    (hrows : ∀ e, e ∈ coo.entries → e.1 < coo.N) (r : Nat) (hr : r < coo.N) :
    ((dataMatrixCRS coo).ptr (r + 1) = (dataMatrixCRS coo).ptr r + coo.nzPerRow r) ∧
    (∀ k, k < coo.nzPerRow r →
      (dataMatrixCRS coo).entryAt ((dataMatrixCRS coo).ptr r + k) =
        (rowEntries r coo.entries)[k]?) ∧
    (∀ k, k < coo.nzPerRow r →
      (dataMatrixELL coo).entryAt (k * coo.N + r) = (rowEntries r coo.entries)[k]?) ∧
    (∀ k, coo.nzPerRow r ≤ k →
      (dataMatrixELL coo).entryAt (k * coo.N + r) = none) :=
  ⟨rfl, fun k hk => crs_lookup coo r k hk,
    fun k hk => ell_lookup coo hrows r k hk,
    fun k hk => ell_padding coo hrows r k hr hk⟩

theorem C1_witness :
    (∀ e, e ∈ cooW.entries → e.1 < cooW.N) ∧ 1 < cooW.N ∧
    (((dataMatrixCRS cooW).ptr (1 + 1) = (dataMatrixCRS cooW).ptr 1 + cooW.nzPerRow 1) ∧
     (∀ k, k < cooW.nzPerRow 1 →
       (dataMatrixCRS cooW).entryAt ((dataMatrixCRS cooW).ptr 1 + k) =
         (rowEntries 1 cooW.entries)[k]?) ∧
     (∀ k, k < cooW.nzPerRow 1 →
       (dataMatrixELL cooW).entryAt (k * cooW.N + 1) = (rowEntries 1 cooW.entries)[k]?) ∧
     (∀ k, cooW.nzPerRow 1 ≤ k →
       (dataMatrixELL cooW).entryAt (k * cooW.N + 1) = none)) :=
  ⟨by decide, by decide,
    C1_row_content_preserved cooW (by decide) 1 (by decide)⟩

/-- C3 counterexample: a symmetric input whose diagonal is not fully stored.
`N = 2`, one stored entry `(1, 2)` (so `U = 1`, `D = 0`): the loader sets
`nz = 2 * nz - N = 0` and stores nothing, while `2U - D` from the claim is 2. -/
theorem C3_counterexample :
    (matrixCOOLoad true 2 1 [((1 : Nat), 2, (5 : Nat))]).nz = 0 ∧
    2 * ([((1 : Nat), 2, (5 : Nat))] : List (Entry Nat)).length -
        diagCount [((1 : Nat), 2, (5 : Nat))] = 2 ∧
    ¬ ((matrixCOOLoad true 2 1 [((1 : Nat), 2, (5 : Nat))]).nz =
        2 * ([((1 : Nat), 2, (5 : Nat))] : List (Entry Nat)).length -
          diagCount [((1 : Nat), 2, (5 : Nat))]) := by
  exact ⟨rfl, rfl, by decide⟩

/-- C3 (amended): for a declared-symmetric input whose stored entries
contain every diagonal entry (`D = N`), the stored nonzero count of the loader
after mirroring is `2U - D` (which then coincides with the
`2U - N` of the code). -/
theorem C3_amended_mirror_count {α : Type} (N : Nat) (file : List (Entry α))
    (hD : diagCount file = N) :
    (matrixCOOLoad true N file.length file).nz =
      2 * file.length - diagCount file := by
  show (loadGo true (if true then 2 * file.length - N else file.length) 0 file).length = _
  rw [if_pos rfl]
  rw [loadGo_complete true (2 * file.length - N) file 0 ?_]
  · rw [mirrorEntries_length, if_pos rfl, hD]
  · rw [mirrorEntries_length, if_pos rfl, hD]
    omega

theorem C3_witness :
    diagCount fileW = 2 ∧
    (matrixCOOLoad true 2 fileW.length fileW).nz =
      2 * fileW.length - diagCount fileW :=
  ⟨by decide, C3_amended_mirror_count 2 fileW (by decide)⟩

/-- C4: the row-pointer array of the CRS conversion satisfies `ptr[0] = 0`,
`ptr[N] = nz`, monotonicity, and `ptr[i+1] - ptr[i] = nzPerRow[i]` for every
row. -/
theorem C4_crs_ptr_invariants {α : Type} (coo : MatrixCOO α)
    (hrows : ∀ e, e ∈ coo.entries → e.1 < coo.N) :
    (dataMatrixCRS coo).ptr 0 = 0 ∧
    (dataMatrixCRS coo).ptr coo.N = coo.nz ∧
    (∀ i j, i ≤ j → (dataMatrixCRS coo).ptr i ≤ (dataMatrixCRS coo).ptr j) ∧
    (∀ i, i < coo.N →
      (dataMatrixCRS coo).ptr (i + 1) - (dataMatrixCRS coo).ptr i =
        coo.nzPerRow i) := by
  refine ⟨rfl, ?_, ?_, ?_⟩
  · show ptrSum coo.nzPerRow coo.N = coo.nz
    rw [ptrSum_eq_sum]
    exact sum_countRow coo.N coo.entries hrows
  · intro i j hij
    exact ptrSum_le coo.nzPerRow hij
  · intro i _
    show ptrSum coo.nzPerRow (i + 1) - ptrSum coo.nzPerRow i = coo.nzPerRow i
    rw [ptrSum]
    omega

theorem C4_witness :
    (∀ e, e ∈ cooW.entries → e.1 < cooW.N) ∧
    ((dataMatrixCRS cooW).ptr 0 = 0 ∧
     (dataMatrixCRS cooW).ptr cooW.N = cooW.nz ∧
     (∀ i j, i ≤ j → (dataMatrixCRS cooW).ptr i ≤ (dataMatrixCRS cooW).ptr j) ∧
     (∀ i, i < cooW.N →
       (dataMatrixCRS cooW).ptr (i + 1) - (dataMatrixCRS cooW).ptr i =
         cooW.nzPerRow i)) :=
  ⟨by decide, C4_crs_ptr_invariants cooW (by decide)⟩

/-- C5: the unchunked ELL conversion copies `nzPerRow` into `length`, sizes
its storage as `N * maxRowNz` where `maxRowNz` bounds (and, unless zero, is
attained by) the per-row counts over `[0, N)`, and stores the `k`-th nonzero
of row `r` (triplet input order) at linear offset `k * N + r`. -/
theorem C5_ell_layout {α : Type} (coo : MatrixCOO α)
    (hrows : ∀ e, e ∈ coo.entries → e.1 < coo.N) (r k : Nat)
    (hr : r < coo.N) (hk : k < coo.nzPerRow r) :
    (dataMatrixELL coo).length r = coo.nzPerRow r ∧
    (dataMatrixELL coo).elements = coo.N * coo.getMaxNz 0 coo.N ∧
    (∀ i, i < coo.N → coo.nzPerRow i ≤ coo.getMaxNz 0 coo.N) ∧
    (coo.getMaxNz 0 coo.N = 0 ∨
      ∃ i, i < coo.N ∧ coo.getMaxNz 0 coo.N = coo.nzPerRow i) ∧
    (dataMatrixELL coo).entryAt (k * coo.N + r) = (rowEntries r coo.entries)[k]? := by
  refine ⟨rfl, rfl, ?_, ?_, ell_lookup coo hrows r k hk⟩
  · intro i hi
    exact getMaxNz_ge coo 0 coo.N i (Nat.zero_le i) hi
  · rcases getMaxNz_attained coo 0 coo.N with h | h
    · exact Or.inl h
    · obtain ⟨i, _, h2, h3⟩ := h
      exact Or.inr ⟨i, h2, h3⟩

theorem C5_witness :
    (∀ e, e ∈ cooW.entries → e.1 < cooW.N) ∧ 2 < cooW.N ∧ 0 < cooW.nzPerRow 2 ∧
    ((dataMatrixELL cooW).length 2 = cooW.nzPerRow 2 ∧
     (dataMatrixELL cooW).elements = cooW.N * cooW.getMaxNz 0 cooW.N ∧
     (∀ i, i < cooW.N → cooW.nzPerRow i ≤ cooW.getMaxNz 0 cooW.N) ∧
     (cooW.getMaxNz 0 cooW.N = 0 ∨
       ∃ i, i < cooW.N ∧ cooW.getMaxNz 0 cooW.N = cooW.nzPerRow i) ∧
     (dataMatrixELL cooW).entryAt (0 * cooW.N + 2) = (rowEntries 2 cooW.entries)[0]?) :=
  ⟨by decide, by decide, by decide,
    C5_ell_layout cooW (by decide) 2 0 (by decide) (by decide)⟩

/-- C6: the chunked ELL construction sizes the storage of chunk `c` as
`maxNz * length` where `maxNz = getMaxNz(offset, offset + length)` is
computed over the own row range of that chunk: it bounds (and, unless zero, is
attained by) exactly the per-row counts of the chunk. -/
theorem C6_split_ell_local_max {α : Type} (coo : MatrixCOO α)
    (wd : WorkDistribution) (c : Nat) (hc : c < wd.numberOfChunks) :
    (splitMatrixELL coo wd).elements c =
      coo.getMaxNz (wd.offsets c) (wd.offsets c + wd.lengths c) * wd.lengths c ∧
    (∀ j, j < wd.lengths c →
      coo.nzPerRow (wd.offsets c + j) ≤
        coo.getMaxNz (wd.offsets c) (wd.offsets c + wd.lengths c)) ∧
    (coo.getMaxNz (wd.offsets c) (wd.offsets c + wd.lengths c) = 0 ∨
      ∃ j, j < wd.lengths c ∧
        coo.getMaxNz (wd.offsets c) (wd.offsets c + wd.lengths c) =
          coo.nzPerRow (wd.offsets c + j)) := by
  refine ⟨rfl, ?_, ?_⟩
  · intro j hj
    exact getMaxNz_ge coo _ _ _ (by omega) (by omega)
  · rcases getMaxNz_attained coo (wd.offsets c) (wd.offsets c + wd.lengths c) with h | h
    · exact Or.inl h
    · obtain ⟨i, h1, h2, h3⟩ := h
      refine Or.inr ⟨i - wd.offsets c, by omega, ?_⟩
      rw [show wd.offsets c + (i - wd.offsets c) = i by omega]
      exact h3

theorem C6_witness :
    0 < wdW.numberOfChunks ∧
    ((splitMatrixELL cooW wdW).elements 0 =
      cooW.getMaxNz (wdW.offsets 0) (wdW.offsets 0 + wdW.lengths 0) * wdW.lengths 0 ∧
     (∀ j, j < wdW.lengths 0 →
       cooW.nzPerRow (wdW.offsets 0 + j) ≤
         cooW.getMaxNz (wdW.offsets 0) (wdW.offsets 0 + wdW.lengths 0)) ∧
     (cooW.getMaxNz (wdW.offsets 0) (wdW.offsets 0 + wdW.lengths 0) = 0 ∨
       ∃ j, j < wdW.lengths 0 ∧
         cooW.getMaxNz (wdW.offsets 0) (wdW.offsets 0 + wdW.lengths 0) =
           cooW.nzPerRow (wdW.offsets 0 + j))) :=
  ⟨by decide, C6_split_ell_local_max cooW wdW 0 (by decide)⟩

/-- C2: for a valid WorkDistribution, every chunk of the split CRS/ELL
constructions carries exactly the data of the unchunked conversion run on
the restricted row range of the chunk: chunk-relative row pointers (starting at
0), every CRS position below the nonzero count of the chunk, the ELL `length`
array, the ELL `elements` size, and every ELL slot below that size. -/
theorem C2_split_eq_restricted {α : Type} (coo : MatrixCOO α)
    (wd : WorkDistribution)
    (hrows : ∀ e, e ∈ coo.entries → e.1 < coo.N) (hwd : WDValid wd coo.N)
    (c : Nat) (hc : c < wd.numberOfChunks) :
    (∀ j, j ≤ wd.lengths c →
      (splitMatrixCRS coo wd).ptr c j =
        (dataMatrixCRS (coo.restrict (wd.offsets c) (wd.lengths c))).ptr j) ∧
    (∀ p, p < (splitMatrixCRS coo wd).ptr c (wd.lengths c) →
      (splitMatrixCRS coo wd).entryAt (c, p) =
        (dataMatrixCRS (coo.restrict (wd.offsets c) (wd.lengths c))).entryAt p) ∧
    (∀ j, j < wd.lengths c →
      (splitMatrixELL coo wd).length c j =
        (dataMatrixELL (coo.restrict (wd.offsets c) (wd.lengths c))).length j) ∧
    ((splitMatrixELL coo wd).elements c =
      (dataMatrixELL (coo.restrict (wd.offsets c) (wd.lengths c))).elements) ∧
    (∀ p, p < (splitMatrixELL coo wd).elements c →
      (splitMatrixELL coo wd).entryAt (c, p) =
        (dataMatrixELL (coo.restrict (wd.offsets c) (wd.lengths c))).entryAt p) := by
  have hptr : ∀ j, j ≤ wd.lengths c →
      splitCRSptr coo wd c j =
        crsPtr (coo.restrict (wd.offsets c) (wd.lengths c)) j := by
    intro j hj
    exact @ptrSum_congr (fun j2 => coo.nzPerRow (wd.offsets c + j2))
      (coo.restrict (wd.offsets c) (wd.lengths c)).nzPerRow (wd.lengths c)
      (fun j2 hj2 => (restrict_nzPerRow coo (wd.offsets c) (wd.lengths c) j2 hj2).symm)
      j hj
  refine ⟨hptr, ?_, ?_, ?_, ?_⟩
  · intro p hp
    obtain ⟨j, hj, k, hk, hpe⟩ := ptrSum_surj
      (fun j2 => coo.nzPerRow (wd.offsets c + j2)) (wd.lengths c) p hp
    subst hpe
    show (splitMatrixCRS coo wd).entryAt (c, splitCRSptr coo wd c j + k) =
      (dataMatrixCRS (coo.restrict (wd.offsets c) (wd.lengths c))).entryAt
        (splitCRSptr coo wd c j + k)
    rw [splitCRS_lookup coo wd hrows hwd c j k hc hj hk]
    have hk2 : k < (coo.restrict (wd.offsets c) (wd.lengths c)).nzPerRow j := by
      rw [restrict_nzPerRow coo (wd.offsets c) (wd.lengths c) j hj]
      exact hk
    have hpos : splitCRSptr coo wd c j + k =
        crsPtr (coo.restrict (wd.offsets c) (wd.lengths c)) j + k := by
      rw [hptr j (Nat.le_of_lt hj)]
    rw [show ((splitCRSptr coo wd c j + k : Nat)) =
        crsPtr (coo.restrict (wd.offsets c) (wd.lengths c)) j + k from hpos,
      crs_lookup (coo.restrict (wd.offsets c) (wd.lengths c)) j k hk2,
      restrict_rowEntries coo (wd.offsets c) (wd.lengths c) j hj]
  · intro j hj
    exact (restrict_nzPerRow coo (wd.offsets c) (wd.lengths c) j hj).symm
  · show coo.getMaxNz (wd.offsets c) (wd.offsets c + wd.lengths c) * wd.lengths c =
      (wd.lengths c) * (coo.restrict (wd.offsets c) (wd.lengths c)).getMaxNz 0 (wd.lengths c)
    rw [restrict_getMaxNz coo (wd.offsets c) (wd.lengths c), Nat.mul_comm]
  · intro p hp
    have hlen0 : 0 < wd.lengths c := by
      by_contra h
      have h0 : wd.lengths c = 0 := by omega
      have : (splitMatrixELL coo wd).elements c = 0 := by
        show coo.getMaxNz (wd.offsets c) (wd.offsets c + wd.lengths c) * wd.lengths c = 0
        rw [h0, Nat.mul_zero]
      omega
    have hdecomp := Nat.div_add_mod p (wd.lengths c)
    obtain ⟨k, j, hj, rfl⟩ : ∃ k j, j < wd.lengths c ∧ p = k * wd.lengths c + j := by
      refine ⟨p / wd.lengths c, p % wd.lengths c, Nat.mod_lt _ hlen0, ?_⟩
      rw [Nat.mul_comm]
      omega
    have hpE : (splitMatrixELL coo wd).elements c =
        coo.getMaxNz (wd.offsets c) (wd.offsets c + wd.lengths c) * wd.lengths c := rfl
    rw [hpE] at hp
    rcases Nat.lt_or_ge k (coo.nzPerRow (wd.offsets c + j)) with hcase | hcase
    · have hk2 : k < (coo.restrict (wd.offsets c) (wd.lengths c)).nzPerRow j := by
        rw [restrict_nzPerRow coo (wd.offsets c) (wd.lengths c) j hj]
        exact hcase
      have h2 : (dataMatrixELL (coo.restrict (wd.offsets c) (wd.lengths c))).entryAt
          (k * wd.lengths c + j) =
          (rowEntries j (coo.restrict (wd.offsets c) (wd.lengths c)).entries)[k]? :=
        ell_lookup (coo.restrict (wd.offsets c) (wd.lengths c))
          (restrict_rows_lt coo (wd.offsets c) (wd.lengths c)) j k hk2
      rw [splitELL_lookup coo wd hrows hwd c j k hc hj hcase, h2,
        restrict_rowEntries coo (wd.offsets c) (wd.lengths c) j hj]
    · have hk2 : (coo.restrict (wd.offsets c) (wd.lengths c)).nzPerRow j ≤ k := by
        rw [restrict_nzPerRow coo (wd.offsets c) (wd.lengths c) j hj]
        exact hcase
      have h2 : (dataMatrixELL (coo.restrict (wd.offsets c) (wd.lengths c))).entryAt
          (k * wd.lengths c + j) = none :=
        ell_padding (coo.restrict (wd.offsets c) (wd.lengths c))
          (restrict_rows_lt coo (wd.offsets c) (wd.lengths c)) j k hj hk2
      rw [splitELL_padding coo wd hrows hwd c j k hc hj hcase, h2]

theorem C2_witness :
    (∀ e, e ∈ cooW.entries → e.1 < cooW.N) ∧ WDValid wdW cooW.N ∧
    0 < wdW.numberOfChunks ∧
    ((∀ j, j ≤ wdW.lengths 0 →
       (splitMatrixCRS cooW wdW).ptr 0 j =
         (dataMatrixCRS (cooW.restrict (wdW.offsets 0) (wdW.lengths 0))).ptr j) ∧
     (∀ p, p < (splitMatrixCRS cooW wdW).ptr 0 (wdW.lengths 0) →
       (splitMatrixCRS cooW wdW).entryAt (0, p) =
         (dataMatrixCRS (cooW.restrict (wdW.offsets 0) (wdW.lengths 0))).entryAt p) ∧
     (∀ j, j < wdW.lengths 0 →
       (splitMatrixELL cooW wdW).length 0 j =
         (dataMatrixELL (cooW.restrict (wdW.offsets 0) (wdW.lengths 0))).length j) ∧
     ((splitMatrixELL cooW wdW).elements 0 =
       (dataMatrixELL (cooW.restrict (wdW.offsets 0) (wdW.lengths 0))).elements) ∧
     (∀ p, p < (splitMatrixELL cooW wdW).elements 0 →
       (splitMatrixELL cooW wdW).entryAt (0, p) =
         (dataMatrixELL (cooW.restrict (wdW.offsets 0) (wdW.lengths 0))).entryAt p)) :=
  ⟨by decide, ⟨by decide, by decide, by decide, by decide, by decide⟩, by decide,
    C2_split_eq_restricted cooW wdW (by decide)
      ⟨by decide, by decide, by decide, by decide, by decide⟩ 0 (by decide)⟩

/-- C7 counterexample: a file that opens, has a well-formed banner of a
real sparse matrix and (trivially) square dimensions, but whose size line
does not parse: the loader still exits with an error, so the list of fatal conditions in the claim is not exhaustive. -/
theorem C7_counterexample :
    isErr (matrixCOOCheck mmW) = true ∧
    mmW.readable = true ∧ mmW.bannerOk = true ∧ mmW.isSparse = true ∧
    mmW.isReal = true ∧ mmW.rows = mmW.cols ∧
    ¬ (isErr (matrixCOOCheck mmW) = true ↔
        (mmW.readable = false ∨ mmW.bannerOk = false ∨
          (mmW.isSparse && mmW.isReal) = false ∨ mmW.cols ≠ mmW.rows)) := by
  exact ⟨rfl, rfl, rfl, rfl, rfl, rfl, by decide⟩

/-- C7 (amended): the loader terminates with an error exactly when the file
is unreadable, the banner is malformed, the type is not real sparse, the
size line cannot be read, or the dimensions are non-square; otherwise
loading proceeds. -/
theorem C7_amended_fatal_errors (f : MMInput) :
    isErr (matrixCOOCheck f) = true ↔
      (f.readable = false ∨ f.bannerOk = false ∨
        (f.isSparse && f.isReal) = false ∨ f.sizeOk = false ∨
        f.cols ≠ f.rows) := by
  rcases f with ⟨rd, bo, sp, re, so, rows, cols, nzh⟩
  unfold matrixCOOCheck
  by_cases h : cols = rows
  · cases rd <;> cases bo <;> cases sp <;> cases re <;> cases so <;>
      simp [isErr, h]
  · cases rd <;> cases bo <;> cases sp <;> cases re <;> cases so <;>
      simp [isErr, h]

/-- C8: each of the five timing wrappers of the CG engine applies its
backend kernel once to the backend state and returns exactly the numeric result of the kernel and state; the only other change is adding the elapsed time
to the own timing accumulator of that wrapper. -/
theorem C8_timing_wrappers {σ α : Type} (matvecKernel : Vector → Vector → σ → σ)
    (axpyKernel : α → Vector → Vector → σ → σ)
    (xpayKernel : Vector → α → Vector → σ → σ)
    (vectorDotKernel : Vector → Vector → σ → α × σ)
    (precondKernel : Vector → Vector → σ → σ)
    (a : α) (x y : Vector) (t0 t1 : Nat) (s : CGState σ) :
    ((CG.matvec matvecKernel x y t0 t1 s).backend = matvecKernel x y s.backend ∧
     (CG.matvec matvecKernel x y t0 t1 s).timing =
       { s.timing with matvec := s.timing.matvec + (t1 - t0) }) ∧
    ((CG.axpy axpyKernel a x y t0 t1 s).backend = axpyKernel a x y s.backend ∧
     (CG.axpy axpyKernel a x y t0 t1 s).timing =
       { s.timing with axpy := s.timing.axpy + (t1 - t0) }) ∧
    ((CG.xpay xpayKernel x a y t0 t1 s).backend = xpayKernel x a y s.backend ∧
     (CG.xpay xpayKernel x a y t0 t1 s).timing =
       { s.timing with xpay := s.timing.xpay + (t1 - t0) }) ∧
    ((CG.vectorDot vectorDotKernel x y t0 t1 s).1 =
       (vectorDotKernel x y s.backend).1 ∧
     (CG.vectorDot vectorDotKernel x y t0 t1 s).2.backend =
       (vectorDotKernel x y s.backend).2 ∧
     (CG.vectorDot vectorDotKernel x y t0 t1 s).2.timing =
       { s.timing with vectorDot := s.timing.vectorDot + (t1 - t0) }) ∧
    ((CG.applyPreconditioner precondKernel x y t0 t1 s).backend =
       precondKernel x y s.backend ∧
     (CG.applyPreconditioner precondKernel x y t0 t1 s).timing =
       { s.timing with
          preconditioner := s.timing.preconditioner + (t1 - t0) }) :=
  ⟨⟨rfl, rfl⟩, ⟨rfl, rfl⟩, ⟨rfl, rfl⟩, ⟨rfl, rfl, rfl⟩, ⟨rfl, rfl⟩⟩

/-- C9: the base-class defaults support no preconditioner and the default
`applyPreconditionerKernel` fails its assertion; hence, under the
setup-validation precondition that a preconditioner other than
`PreconditionerNone` is selected only when supported, the selected
preconditioner must be `PreconditionerNone` and the assertion-failing
default is unreachable. -/
theorem C9_default_preconditioner_unreachable (sel : Preconditioner)
    (hvalid : sel ≠ Preconditioner.PreconditionerNone →
      CG.supportsPreconditioner sel = true) :
    sel = Preconditioner.PreconditionerNone ∧
    (∀ p, CG.supportsPreconditioner p = false) ∧
    isErr CG.applyPreconditionerKernel = true := by
  refine ⟨?_, fun p => rfl, rfl⟩
  by_contra h
  exact absurd (hvalid h) (by simp [CG.supportsPreconditioner])

theorem C9_witness :
    (Preconditioner.PreconditionerNone ≠ Preconditioner.PreconditionerNone →
      CG.supportsPreconditioner Preconditioner.PreconditionerNone = true) ∧
    (Preconditioner.PreconditionerNone = Preconditioner.PreconditionerNone ∧
     (∀ p, CG.supportsPreconditioner p = false) ∧
     isErr CG.applyPreconditionerKernel = true) :=
  ⟨fun h => absurd rfl h,
    C9_default_preconditioner_unreachable Preconditioner.PreconditionerNone
      (fun h => absurd rfl h)⟩

/-- C10: after the loader finishes on a well-formed input (1-based indices
in `[1, N]`; for a symmetric banner the whole diagonal is stored), the
per-row counts sum to the stored nonzero count, and for a symmetric banner
the stored entries are exactly the triplets of the file with each off-diagonal
entry immediately followed by its mirror (indices swapped, same value). -/
theorem C10_loader_invariants {α : Type} (sym : Bool) (N : Nat)
    (file : List (Entry α))
    (hidx : ∀ e, e ∈ file → 1 ≤ e.1 ∧ e.1 ≤ N ∧ 1 ≤ e.2.1 ∧ e.2.1 ≤ N)
    (hD : sym = true → diagCount file = N) :
    Finset.sum (Finset.range N)
      (fun r => (matrixCOOLoad sym N file.length file).nzPerRow r) =
      (matrixCOOLoad sym N file.length file).nz ∧
    (matrixCOOLoad sym N file.length file).entries = mirrorEntries sym file := by
  have hentries : (matrixCOOLoad sym N file.length file).entries =
      mirrorEntries sym file := by
    show loadGo sym (if sym then 2 * file.length - N else file.length) 0 file = _
    cases sym with
    | false =>
      rw [if_neg Bool.false_ne_true]
      apply loadGo_complete
      rw [mirrorEntries_length]
      simp
    | true =>
      rw [if_pos rfl]
      apply loadGo_complete
      rw [mirrorEntries_length, if_pos rfl, hD rfl]
      omega
  have hrowsm : ∀ e2, e2 ∈ (matrixCOOLoad sym N file.length file).entries → e2.1 < N := by
    intro e2 h2
    rw [hentries] at h2
    obtain ⟨e, he, hor⟩ := mirrorEntries_rows sym file e2 h2
    have := hidx e he
    rcases hor with h | h <;> omega
  exact ⟨sum_countRow N (matrixCOOLoad sym N file.length file).entries hrowsm,
    hentries⟩

theorem C10_witness :
    (∀ e, e ∈ fileW → 1 ≤ e.1 ∧ e.1 ≤ 2 ∧ 1 ≤ e.2.1 ∧ e.2.1 ≤ 2) ∧
    (true = true → diagCount fileW = 2) ∧
    (Finset.sum (Finset.range 2)
      (fun r => (matrixCOOLoad true 2 fileW.length fileW).nzPerRow r) =
      (matrixCOOLoad true 2 fileW.length fileW).nz ∧
     (matrixCOOLoad true 2 fileW.length fileW).entries = mirrorEntries true fileW) :=
  ⟨by decide, by decide,
    C10_loader_invariants true 2 fileW (by decide) (by decide)⟩

end CGxx
